import Mathlib

/- Verification development for the PIM catalog tooling.

   Embedded source files:
   - src/export/export_product_catalog_links.py  (extract_catalog_links)
   - src/export/export_catalog_structure.py      (flatten_catalog_tree)
   - src/export/analyze_catalog_data.py          (find_inconsistencies)
   - src/create_new_products_in_pim.py           (normalize_category_name,
     load_categories, create_category, ensure_category_path,
     find_similar_category, find_category_by_breadcrumbs)

   Remote HTTP calls are abstracted as pure oracles (an environment function
   describing, for the k-th creation request, whether it succeeded and what
   the subsequent full re-fetch of the catalog returns); the create-call
   payloads the code would send are collected in an explicit trace. -/

namespace PIM

/- ---------------------------------------------------------------------
   Python string primitives
   --------------------------------------------------------------------- -/

/-- Whitespace characters recognized by Python str.split() / str.strip(). -/
def isPySpace (c : Char) : Bool :=
  c = ' ' || c = '\t' || c = '\n' || c = '\r' || c = '\x0b' || c = '\x0c'

/-- Python str.lower per character, restricted to the character ranges that
    occur in this repository's data: ASCII letters (65-90) and the basic
    Cyrillic block (1040-1071 plus Ё 1025). Other characters are unchanged. -/
def pyLowerChar (c : Char) : Char :=
  if 65 ≤ c.toNat ∧ c.toNat ≤ 90 then Char.ofNat (c.toNat + 32)
  else if 1040 ≤ c.toNat ∧ c.toNat ≤ 1071 then Char.ofNat (c.toNat + 32)
  else if c.toNat = 1025 then Char.ofNat 1105
  else c

/-- Python str.lower on a whole string. -/
def pyLower (s : String) : String :=
  ⟨s.data.map pyLowerChar⟩

/-- Helper for Python str.split() (no separator): accumulate the current
    token (reversed) and emit tokens at whitespace runs, dropping empties. -/
def splitWsAux : List Char → List Char → List (List Char)
  | cur, [] => if cur.isEmpty then [] else [cur.reverse]
  | cur, c :: cs =>
    if isPySpace c then
      if cur.isEmpty then splitWsAux [] cs else cur.reverse :: splitWsAux [] cs
    else splitWsAux (c :: cur) cs

/-- Python str.split() with no separator: split on whitespace runs. -/
def splitWs (l : List Char) : List (List Char) :=
  splitWsAux [] l

/-- Python sep.join on character lists. -/
def joinWith (sep : List Char) : List (List Char) → List Char
  | [] => []
  | [t] => t
  | t :: t' :: ts => t ++ sep ++ joinWith sep (t' :: ts)

/-- Python sep.join(strings). -/
def joinStrings (sep : String) (l : List String) : String :=
  ⟨joinWith sep.data (l.map String.data)⟩

/-- normalize_category_name from create_new_products_in_pim.py:
    name.strip().lower(), then " ".join(normalized.split()), i.e. lowercase
    with whitespace runs collapsed to single spaces and ends stripped. -/
def pyNormalize (s : String) : String :=
  ⟨joinWith [' '] (splitWs (s.data.map pyLowerChar))⟩

/-- Helper for Python s.split(sep): keeps empty pieces. -/
def splitCharAux (sep : Char) : List Char → List Char → List (List Char)
  | cur, [] => [cur.reverse]
  | cur, c :: cs =>
    if c = sep then cur.reverse :: splitCharAux sep [] cs
    else splitCharAux sep (c :: cur) cs

/-- Python s.split(sep) for a one-character separator. -/
def pySplitOn (sep : Char) (s : String) : List String :=
  (splitCharAux sep [] s.data).map (fun l => ⟨l⟩)

/-- Python s.strip(). -/
def pyStrip (s : String) : String :=
  ⟨((s.data.dropWhile isPySpace).reverse.dropWhile isPySpace).reverse⟩

/-- Python s.replace(c, "") for a one-character pattern: removes every
    occurrence of the character, anywhere in the string. -/
def removeAllChar (c : Char) (s : String) : String :=
  ⟨s.data.filter (fun x => x != c)⟩

/-- Does hay start with needle? -/
def firstMatches : List Char → List Char → Bool
  | [], _ => true
  | _ :: _, [] => false
  | a :: as, b :: bs => a == b && firstMatches as bs

/-- Contiguous substring test. -/
def containsSub (needle : List Char) : List Char → Bool
  | [] => firstMatches needle []
  | l@(_ :: t) => firstMatches needle l || containsSub needle t

/-- Python `needle in hay` for strings. -/
def pyIn (needle hay : String) : Bool :=
  containsSub needle.data hay.data

/- ---------------------------------------------------------------------
   Python dict with string keys (insertion order preserved; assigning to
   an existing key replaces the value in place, new keys are appended)
   --------------------------------------------------------------------- -/

abbrev PyDict (α : Type) := List (String × α)

def dictGet {α : Type} (m : PyDict α) (k : String) : Option α :=
  (m.find? (fun p => p.1 == k)).map (fun p => p.2)

def dictMem {α : Type} (m : PyDict α) (k : String) : Bool :=
  m.any (fun p => p.1 == k)

def dictInsert {α : Type} (m : PyDict α) (k : String) (v : α) : PyDict α :=
  if dictMem m k then m.map (fun p => if p.1 == k then (k, v) else p)
  else m ++ [(k, v)]

/- ---------------------------------------------------------------------
   LinkBuilder: extract_catalog_links
   (src/export/export_product_catalog_links.py, lines 113-150)
   --------------------------------------------------------------------- -/

/-- A catalog object inside a product payload ("catalog" / "catalogs"
    entries). Absent JSON fields are none; Python truthiness of the id
    means: present and non-zero. -/
structure CatRef where
  id : Option Int
  syncUid : Option String
  header : Option String
deriving DecidableEq, Repr

/-- The slice of a /product/{id} payload that extract_catalog_links reads. -/
structure ProductPayload where
  id : Option Int
  catalog : Option CatRef
  catalogs : Option (List (Option CatRef))
deriving DecidableEq, Repr

/-- One row of the links output. -/
structure Link where
  product_id : Int
  catalog_id : Int
  catalog_sync_uid : Option String
  catalog_header : Option String
  is_primary : Bool
  sort_order : Nat
deriving DecidableEq, Repr

/-- Python truthiness of an optional integer field. -/
def truthyId : Option Int → Bool
  | some n => n != 0
  | none => false

/-- The `for idx, cat in enumerate(catalogs_additional, start=1)` loop:
    every list position consumes an index, entries with a falsy object or a
    falsy id are skipped but still advance the index. -/
def additional_links (pid : Int) : List (Option CatRef) → Nat → List Link
  | [], _ => []
  | oc :: rest, idx =>
    (match oc with
     | some c =>
       match c.id with
       | some cid =>
         if cid != 0 then
           [{ product_id := pid, catalog_id := cid, catalog_sync_uid := c.syncUid,
              catalog_header := c.header, is_primary := false, sort_order := idx }]
         else []
       | none => []
     | none => []) ++ additional_links pid rest (idx + 1)

/-- The "Основной каталог" block: one primary row when the "catalog" object
    and its id are truthy, none otherwise. -/
def primary_links (pid : Int) : Option CatRef → List Link
  | some c =>
    match c.id with
    | some cid =>
      if cid != 0 then
        [{ product_id := pid, catalog_id := cid, catalog_sync_uid := c.syncUid,
           catalog_header := c.header, is_primary := true, sort_order := 0 }]
      else []
    | none => []
  | none => []

/-- extract_catalog_links: primary link (is_primary=True, sort_order=0) from
    the "catalog" field when it and its id are truthy, then one additional
    link per truthy entry of "catalogs" with 1-based sort_order. -/
def extract_catalog_links (p : ProductPayload) : List Link :=
  match p.id with
  | none => []
  | some pid =>
    if pid == 0 then []
    else primary_links pid p.catalog ++ additional_links pid (p.catalogs.getD []) 1

/- ---------------------------------------------------------------------
   TreeFlattener: flatten_catalog_tree
   (src/export/export_catalog_structure.py, lines 82-143)
   --------------------------------------------------------------------- -/

/-- A node of the nested catalog tree, with the payload fields that the
    flattener and the consistency checker observe. `catalog.get("header","")`
    makes header total; lft/rgt may be absent (None). Boolean fields model
    the truthiness of `catalog.get(...)` (with `enabled` defaulting to
    True). -/
inductive Node where
  | mk : Option Int → String → Option String → Option Int → Option Int →
         Option Int → Bool → Bool → Int → List Node → Node

def Node.id : Node → Option Int
  | .mk i _ _ _ _ _ _ _ _ _ => i

def Node.header : Node → String
  | .mk _ h _ _ _ _ _ _ _ _ => h

def Node.children : Node → List Node
  | .mk _ _ _ _ _ _ _ _ _ cs => cs

/-- One entry of the flat list built by flatten_catalog_tree (the fields the
    claims observe; the analyzer scripts read this same JSON shape). -/
structure Entry where
  id : Option Int
  header : String
  syncUid : Option String
  parentId : Option Int
  lft : Option Int
  rgt : Option Int
  lastLevel : Bool
  enabled : Bool
  productCountPim : Int
  path : String
  pathArray : List String
  depth : Nat
  hasChildren : Bool
  childrenCount : Nat
deriving DecidableEq, Repr

/-- The catalog_entry dict built for one node: current_path is the parent
    path extended by this node's header; `children` has already been popped
    out of the node, so hasChildren/childrenCount come from the popped
    list. -/
def mkEntry (i : Option Int) (h : String) (su : Option String)
    (pid : Option Int) (l r : Option Int) (ll en : Bool) (pc : Int)
    (currentPath : List String) (children : List Node) : Entry :=
  { id := i, header := h, syncUid := su, parentId := pid, lft := l, rgt := r,
    lastLevel := ll, enabled := en, productCountPim := pc,
    path := joinStrings " > " currentPath, pathArray := currentPath,
    depth := currentPath.length, hasChildren := !children.isEmpty,
    childrenCount := children.length }

mutual

/-- One iteration of flatten_catalog_tree's loop body on a node: append the
    node's entry, then (only when the popped children list is non-empty)
    recurse into the children with the extended parent path. -/
def flattenNode (parentPath : List String) : Node → List Entry
  | Node.mk i h su pid l r ll en pc cs =>
    mkEntry i h su pid l r ll en pc (parentPath ++ [h]) cs ::
      (if cs.isEmpty then [] else flattenList (parentPath ++ [h]) cs)

/-- The `for catalog in tree` loop of flatten_catalog_tree: entries of each
    node (and its subtree) in order, siblings appended afterwards. -/
def flattenList (parentPath : List String) : List Node → List Entry
  | [] => []
  | n :: rest => flattenNode parentPath n ++ flattenList parentPath rest

end

/-- `catalog.pop("children", [])` removes the children from the node dict
    held in the caller's tree. -/
def stripChildren : Node → Node
  | .mk i h su pid l r ll en pc _ => .mk i h su pid l r ll en pc []

/-- flatten_catalog_tree(tree): returns the flat list, and the state of the
    caller's tree after the call (the same top-level node objects, each with
    its children popped — the mutation performed by `catalog.pop`). -/
def flatten_catalog_tree (tree : List Node) : List Entry × List Node :=
  (flattenList [] tree, tree.map stripChildren)

/-- Looking a node id up in a flat list: the first entry with that id, its
    path / pathArray / depth. -/
def lookupPD (i : Option Int) (es : List Entry) :
    Option (String × List String × Nat) :=
  (es.find? (fun e => e.id == i)).map (fun e => (e.path, e.pathArray, e.depth))

/- ---------------------------------------------------------------------
   ConsistencyChecker: find_inconsistencies
   (src/export/analyze_catalog_data.py, lines 226-279)
   --------------------------------------------------------------------- -/

/-- One reported issue, tagged by which of the four checks produced it (the
    script appends a formatted message per finding; the message contents are
    determined by the catalog / uid recorded here). -/
inductive Finding where
  | nestedSet : Entry → Finding
  | leafWithChildren : Entry → Finding
  | disabledWithProducts : Entry → Finding
  | dupSyncUid : String → Finding
deriving DecidableEq, Repr

/-- Check 1: `if lft and rgt and lft >= rgt` — both bounds must be truthy
    (present and non-zero) before the comparison is even made. -/
def nestedSetViolation (c : Entry) : Bool :=
  match c.lft, c.rgt with
  | some l, some r => l != 0 && r != 0 && decide (r ≤ l)
  | _, _ => false

/-- Truthy syncUid values of the catalog list, in order (check 4's
    `sync_uids` list comprehension). -/
def truthySyncUids (catalogs : List Entry) : List String :=
  catalogs.filterMap (fun c =>
    match c.syncUid with
    | some u => if u = "" then none else some u
    | none => none)

/-- Distinct values in first-occurrence order (the iteration order of the
    Counter in check 4), via a seen-set accumulator. -/
def firstDedupAux (seen : List String) : List String → List String
  | [] => []
  | x :: xs =>
    if seen.contains x then firstDedupAux seen xs
    else x :: firstDedupAux (x :: seen) xs

def firstDedup (l : List String) : List String :=
  firstDedupAux [] l

/-- find_inconsistencies: the four checks run in order over the whole flat
    list, each appending its findings to `issues`. -/
def find_inconsistencies (catalogs : List Entry) : List Finding :=
  (catalogs.filter nestedSetViolation).map Finding.nestedSet ++
  (catalogs.filter (fun c => c.lastLevel && c.hasChildren)).map
    Finding.leafWithChildren ++
  (catalogs.filter (fun c => !c.enabled && decide (0 < c.productCountPim))).map
    Finding.disabledWithProducts ++
  ((firstDedup (truthySyncUids catalogs)).filter
    (fun u => 1 < (truthySyncUids catalogs).count u)).map Finding.dupSyncUid

/- ---------------------------------------------------------------------
   load_categories (src/create_new_products_in_pim.py, lines 48-107)
   --------------------------------------------------------------------- -/

/-- A node of the /catalog/22 response tree. `catalog["id"]` and
    `catalog["header"]` are indexed directly (assumed present);
    syncUid/parentId default to None, enabled defaults to True. -/
inductive CTree where
  | mk : Int → String → Option String → Option Int → Bool → List CTree → CTree

def CTree.id : CTree → Int
  | .mk i _ _ _ _ _ => i

def CTree.header : CTree → String
  | .mk _ h _ _ _ _ => h

def CTree.children : CTree → List CTree
  | .mk _ _ _ _ _ cs => cs

/-- The category_info dict stored in both indexes. -/
structure Cat where
  id : Int
  header : String
  syncUid : Option String
  parentId : Option Int
  enabled : Bool
  full_path : String
deriving DecidableEq, Repr

/-- ID of the "Уровень - 1с" catalog (CATALOG_1C_ID). -/
def CATALOG_1C_ID : Int := 22

/-- State threaded through parse_catalog:
    (categories_map, categories_by_path, root_category). -/
abbrev LoadSt := PyDict Cat × PyDict Cat × Option Cat

mutual

/-- parse_catalog: normalize the header, build the full path (parent path
    truthiness gate), store the info under the name and under the full path,
    capture the node as root when its id is CATALOG_1C_ID, then recurse into
    the children with the current full path. -/
def parse_catalog (c : CTree) (parent_path : String) (st : LoadSt) : LoadSt :=
  match c with
  | .mk i h su pid en cs =>
    let current_name := pyNormalize h
    let full_path :=
      if parent_path = "" then current_name
      else parent_path ++ " / " ++ current_name
    let info : Cat :=
      { id := i, header := h, syncUid := su, parentId := pid, enabled := en,
        full_path := full_path }
    let m' := dictInsert st.1 current_name info
    let bp' := dictInsert st.2.1 full_path info
    let root' := if i = CATALOG_1C_ID then some info else st.2.2
    parse_list cs full_path (m', bp', root')

def parse_list (cs : List CTree) (parent_path : String) (st : LoadSt) : LoadSt :=
  match cs with
  | [] => st
  | c :: rest => parse_list rest parent_path (parse_catalog c parent_path st)

end

/-- The hard-coded fallback root used when the traversal found no node with
    id CATALOG_1C_ID. -/
def fallbackRoot : Cat :=
  { id := CATALOG_1C_ID, header := "Уровень - 1с",
    syncUid := some "a91bf1b0-024b-4c4d-83d6-d73ec08e9498",
    parentId := some 1, enabled := true, full_path := "уровень - 1с" }

/-- load_categories on an already-fetched tree: run parse_catalog from the
    root with empty parent path and empty indexes, then substitute the
    fallback root if none was found. -/
def load_categories (tree : CTree) : PyDict Cat × PyDict Cat × Cat :=
  let st := parse_catalog tree "" ([], [], none)
  (st.1, st.2.1, st.2.2.getD fallbackRoot)

mutual

/-- Does the tree contain a node with the given id? -/
def hasIdTree (i : Int) : CTree → Bool
  | .mk j _ _ _ _ cs => j = i || hasIdList i cs

def hasIdList (i : Int) : List CTree → Bool
  | [] => false
  | c :: rest => hasIdTree i c || hasIdList i rest

end

/- ---------------------------------------------------------------------
   CategoryCreator: create_category + ensure_category_path
   (src/create_new_products_in_pim.py, lines 110-178)
   --------------------------------------------------------------------- -/

/-- The JSON body create_category POSTs to /catalog/rapid. The code builds
    it with the constants id=0, enabled=True, deleted=False, lastLevel=True,
    pos=500, for every segment. -/
structure CreateCall where
  id : Int
  parentId : Int
  header : String
  enabled : Bool
  deleted : Bool
  lastLevel : Bool
  pos : Int
deriving DecidableEq, Repr

/-- The remote environment seen by ensure_category_path: for the k-th
    create request of the walk, whether create_category reported success,
    and the categories_by_path index produced by the full re-fetch
    (load_categories) that follows a successful creation. -/
abbrev CreateEnv := Nat → Bool × PyDict Cat

/-- current_path extension in the loop:
    f-string join gated on the truthiness of current_path. -/
def extend_path (cur np : String) : String :=
  if cur = "" then np else cur ++ " / " ++ np

/-- The `for part in parts` loop of ensure_category_path, also collecting
    the trace of create calls issued. k counts the creations already
    performed (indexing the environment). After the loop the code returns
    `categories_by_path.get(current_path)` on the final index. -/
def ensure_go (env : CreateEnv) :
    List String → Int → String → PyDict Cat → Nat →
    Option Cat × List CreateCall
  | [], _, cur, bp, _ => (dictGet bp cur, [])
  | part :: rest, parent, cur, bp, k =>
    let normalized_part := pyNormalize part
    let cur' := extend_path cur normalized_part
    match dictGet bp cur' with
    | some c => ensure_go env rest c.id cur' bp k
    | none =>
      let call : CreateCall :=
        { id := 0, parentId := parent, header := part, enabled := true,
          deleted := false, lastLevel := true, pos := 500 }
      match env k with
      | (true, bp') =>
        match dictGet bp' cur' with
        | some c' =>
          let res := ensure_go env rest c'.id cur' bp' (k + 1)
          (res.1, call :: res.2)
        | none => (none, [call])
      | (false, _) => (none, [call])

/-- ensure_category_path(token, breadcrumbs, ...): falsy breadcrumbs return
    None immediately; otherwise split on "/", strip each part, and walk from
    the root category's id with empty current path. -/
def ensure_category_path (env : CreateEnv) (breadcrumbs : String)
    (bp : PyDict Cat) (root : Cat) : Option Cat × List CreateCall :=
  if breadcrumbs = "" then (none, [])
  else ensure_go env ((pySplitOn '/' breadcrumbs).map pyStrip) root.id "" bp 0

/- ---------------------------------------------------------------------
   PathResolver: find_similar_category + find_category_by_breadcrumbs
   (src/create_new_products_in_pim.py, lines 181-259)
   --------------------------------------------------------------------- -/

/-- The search_variants list of find_similar_category: the plain normalized
    term, then str.replace("ы","") / str.replace("и","") / str.replace(" ","")
    — each replace removes every occurrence, not only a trailing one. -/
def search_variants (s : String) : List String :=
  [s, removeAllChar 'ы' s, removeAllChar 'и' s, removeAllChar ' ' s]

/-- find_similar_category: exact lookup of each variant in categories_map,
    then the first name related to the term by substring containment in
    either direction, then the first full path containing the term (the path
    is lowercased for this test). -/
def find_similar_category (search_term : String) (m bp : PyDict Cat) :
    Option Cat :=
  let s := pyNormalize search_term
  match (search_variants s).findSome? (fun v => dictGet m v) with
  | some c => some c
  | none =>
    match m.find? (fun p => pyIn s p.1 || pyIn p.1 s) with
    | some p => some p.2
    | none =>
      match bp.find? (fun p => pyIn s (pyLower p.1)) with
      | some p => some p.2
      | none => none

/-- The normalized full breadcrumb:
    " / ".join(normalize_category_name(p) for p in breadcrumbs.split("/")). -/
def normalized_breadcrumbs (breadcrumbs : String) : String :=
  joinStrings " / " ((pySplitOn '/' breadcrumbs).map pyNormalize)

/-- find_category_by_breadcrumbs on a string input. Steps: falsy guard;
    exact full-path match; per-segment match from the most specific segment
    backwards; fuzzy per-segment match; on-demand creation when a (truthy)
    token and a root category are supplied, else None. The creation oracle
    stands for the token + remote service. -/
def find_category_by_breadcrumbs (breadcrumbs : String) (m bp : PyDict Cat)
    (tokenEnv : Option CreateEnv) (root : Option Cat) : Option Cat :=
  if breadcrumbs = "" then none
  else
    match dictGet bp (normalized_breadcrumbs breadcrumbs) with
    | some c => some c
    | none =>
      let parts := (pySplitOn '/' breadcrumbs).map pyNormalize
      match parts.reverse.findSome? (fun part => dictGet m part) with
      | some c => some c
      | none =>
        match parts.reverse.findSome?
            (fun part => find_similar_category part m bp) with
        | some c => some c
        | none =>
          match tokenEnv, root with
          | some env, some r => (ensure_category_path env breadcrumbs bp r).1
          | _, _ => none

/-- Python values, for the dynamic-typing contract of the resolver (the
    breadcrumbs argument comes from item records and need not be a string). -/
inductive PyVal where
  | vNone : PyVal
  | vStr : String → PyVal
  | vInt : Int → PyVal
deriving DecidableEq, Repr

def PyVal.truthy : PyVal → Bool
  | .vNone => false
  | .vStr s => s != ""
  | .vInt n => n != 0

def PyVal.isStr : PyVal → Bool
  | .vStr _ => true
  | _ => false

/-- The exception outcome of running find_category_by_breadcrumbs on an
    arbitrary Python value: the only raise the code can produce on a
    non-string is the AttributeError from `breadcrumbs.split("/")`. No
    InvalidBreadcrumbError class exists anywhere in the repository. -/
inductive PyErr where
  | attributeError : PyErr
deriving DecidableEq, Repr

/-- find_category_by_breadcrumbs with Python's dynamic typing made explicit:
    the falsy guard `if not breadcrumbs` fires before any string method is
    reached, so falsy values of any type return None; truthy strings run the
    resolver; truthy non-strings raise AttributeError at `.split("/")`. -/
def find_category_by_breadcrumbs_dyn (v : PyVal) (m bp : PyDict Cat)
    (tokenEnv : Option CreateEnv) (root : Option Cat) :
    Except PyErr (Option Cat) :=
  if v.truthy = false then Except.ok none
  else
    match v with
    | .vStr s => Except.ok (find_category_by_breadcrumbs s m bp tokenEnv root)
    | _ => Except.error PyErr.attributeError

/-- Did the call raise? -/
def raised {ε α : Type} : Except ε α → Bool
  | .error _ => true
  | .ok _ => false

/-- Modelled from the spec (§4.2 step 3), for comparison with the code's
    search_variants: the fuzzy variants as the spec words them — the segment
    with a single trailing "ы" removed, with a single trailing "и" removed,
    and with all spaces removed. -/
def dropTrailingChar (c : Char) (s : String) : String :=
  match s.data.reverse with
  | x :: rest => if x = c then ⟨rest.reverse⟩ else s
  | [] => s

/-- Modelled from the spec: the exact variant list the claim asserts the
    fuzzy step tries. -/
def spec_fuzzy_variants (s : String) : List String :=
  [dropTrailingChar 'ы' s, dropTrailingChar 'и' s, removeAllChar ' ' s]

/- =====================================================================
   Supporting lemmas: LinkBuilder
   ===================================================================== -/

theorem additional_links_cons (pid : Int) (oc : Option CatRef)
    (rest : List (Option CatRef)) (idx : Nat) :
    additional_links pid (oc :: rest) idx =
      (match oc with
       | some c =>
         match c.id with
         | some cid =>
           if cid != 0 then
             [{ product_id := pid, catalog_id := cid,
                catalog_sync_uid := c.syncUid, catalog_header := c.header,
                is_primary := false, sort_order := idx }]
           else []
         | none => []
       | none => []) ++ additional_links pid rest (idx + 1) := rfl

theorem additional_links_append (pid : Int) (xs ys : List (Option CatRef))
    (idx : Nat) :
    additional_links pid (xs ++ ys) idx =
      additional_links pid xs idx ++
        additional_links pid ys (idx + xs.length) := by
  induction xs generalizing idx with
  | nil => simp [additional_links]
  | cons x xs ih =>
    have harith : idx + 1 + xs.length = idx + (xs.length + 1) := by omega
    simp only [List.cons_append, additional_links_cons, ih, harith,
      List.length_cons, List.append_assoc]

theorem mem_additional_links {pid : Int} {cats : List (Option CatRef)}
    {idx : Nat} {l : Link} (h : l ∈ additional_links pid cats idx) :
    l.is_primary = false ∧ idx ≤ l.sort_order ∧ l.product_id = pid := by
  induction cats generalizing idx with
  | nil => simp [additional_links] at h
  | cons oc rest ih =>
    rw [additional_links_cons] at h
    rcases List.mem_append.mp h with h1 | h2
    · cases oc with
      | none => simp at h1
      | some c =>
        obtain ⟨ocid, osu, ohd⟩ := c
        cases ocid with
        | none => simp at h1
        | some cid =>
          by_cases hc : cid = 0
          · simp [hc] at h1
          · have hne : (cid != 0) = true := by simpa using hc
            simp only [hne, if_true, List.mem_singleton] at h1
            subst h1
            exact ⟨rfl, Nat.le_refl _, rfl⟩
    · have h3 := ih h2
      exact ⟨h3.1, Nat.le_of_succ_le h3.2.1, h3.2.2⟩

theorem countP_is_primary_additional (pid : Int) (cats : List (Option CatRef))
    (idx : Nat) :
    (additional_links pid cats idx).countP (fun l => l.is_primary) = 0 := by
  rw [List.countP_eq_zero]
  intro l hl
  simp [(mem_additional_links hl).1]

theorem mem_primary_links {pid : Int} {oc : Option CatRef} {l : Link}
    (h : l ∈ primary_links pid oc) :
    l.is_primary = true ∧ l.sort_order = 0 ∧ primary_links pid oc = [l] := by
  cases oc with
  | none => simp [primary_links] at h
  | some c =>
    obtain ⟨ocid, osu, ohd⟩ := c
    cases ocid with
    | none => simp [primary_links] at h
    | some cid =>
      by_cases hc : cid = 0
      · simp [primary_links, hc] at h
      · have hne : (cid != 0) = true := by simpa using hc
        simp only [primary_links, hne, if_true, List.mem_singleton] at h
        subst h
        exact ⟨rfl, rfl, by simp [primary_links, hne]⟩

theorem primary_links_length (pid : Int) (oc : Option CatRef) :
    (primary_links pid oc).length ≤ 1 := by
  cases oc with
  | none => simp [primary_links]
  | some c =>
    obtain ⟨ocid, osu, ohd⟩ := c
    cases ocid with
    | none => simp [primary_links]
    | some cid => by_cases hc : (cid != 0) <;> simp [primary_links, hc]

/- =====================================================================
   Concrete inputs used by counterexamples and witnesses
   ===================================================================== -/

/-- The scenario payload of the dedup claim: primary catalog 10, additional
    catalogs [10, 11]. -/
def crefTen : CatRef := { id := some 10, syncUid := none, header := none }

def crefEleven : CatRef := { id := some 11, syncUid := none, header := none }

def pC1 : ProductPayload :=
  { id := some 1, catalog := some crefTen,
    catalogs := some [some crefTen, some crefEleven] }

/-- An entry whose nested-set bounds are both zero (lft >= rgt, but both
    falsy in Python). -/
def eZeroBounds : Entry :=
  { id := some 5, header := "z", syncUid := none, parentId := none,
    lft := some 0, rgt := some 0, lastLevel := false, enabled := true,
    productCountPim := 0, path := "z", pathArray := ["z"], depth := 1,
    hasChildren := false, childrenCount := 0 }

/-- An entry with genuinely inverted non-zero nested-set bounds. -/
def eBadBounds : Entry :=
  { id := some 6, header := "w", syncUid := none, parentId := none,
    lft := some 5, rgt := some 3, lastLevel := false, enabled := true,
    productCountPim := 0, path := "w", pathArray := ["w"], depth := 1,
    hasChildren := false, childrenCount := 0 }

/- =====================================================================
   C1 — link dedup claim
   ===================================================================== -/

/-- C1 counterexample: for the payload with primary catalog 10 and
    additional catalogs [10, 11], extract_catalog_links keeps THREE rows —
    the duplicate (product 1, catalog 10) pair appears both as the primary
    row and as an additional row with sort_order 1 — refuting "at most one
    link row is retained for that pair" and the claimed two-row output. -/
theorem C1_counterexample :
    extract_catalog_links pC1 =
      [{ product_id := 1, catalog_id := 10, catalog_sync_uid := none,
         catalog_header := none, is_primary := true, sort_order := 0 },
       { product_id := 1, catalog_id := 10, catalog_sync_uid := none,
         catalog_header := none, is_primary := false, sort_order := 1 },
       { product_id := 1, catalog_id := 11, catalog_sync_uid := none,
         catalog_header := none, is_primary := false, sort_order := 2 }] ∧
    (extract_catalog_links pC1).countP (fun l => l.catalog_id == 10) = 2 := by
  decide

/-- C1 amended: no deduplication is performed — whenever a catalog id occurs
    both as the primary catalog and anywhere in the additional list, the
    output contains at least two rows for that (product, catalog) pair. -/
theorem C1_duplicate_pair_keeps_both_rows (pid cid : Int) (su h : Option String)
    (pre post : List (Option CatRef)) (hpid : pid ≠ 0) (hcid : cid ≠ 0) :
    2 ≤ (extract_catalog_links
          { id := some pid,
            catalog := some { id := some cid, syncUid := su, header := h },
            catalogs := some
              (pre ++ some { id := some cid, syncUid := su, header := h } :: post) }).countP
        (fun l => l.catalog_id == cid) := by
  have hpid' : (pid == 0) = false := by simpa using hpid
  have hcid' : (cid != 0) = true := by simpa using hcid
  have hE : extract_catalog_links
      { id := some pid,
        catalog := some { id := some cid, syncUid := su, header := h },
        catalogs := some
          (pre ++ some { id := some cid, syncUid := su, header := h } :: post) } =
      primary_links pid (some { id := some cid, syncUid := su, header := h }) ++
        additional_links pid
          (pre ++ some { id := some cid, syncUid := su, header := h } :: post) 1 := by
    simp [extract_catalog_links, hpid']
  rw [hE, List.countP_append]
  have h1 : (primary_links pid
      (some { id := some cid, syncUid := su, header := h })).countP
      (fun l => l.catalog_id == cid) = 1 := by
    simp [primary_links, hcid', List.countP_cons]
  have h2 : 1 ≤ (additional_links pid
      (pre ++ some { id := some cid, syncUid := su, header := h } :: post) 1).countP
      (fun l => l.catalog_id == cid) := by
    rw [additional_links_append, List.countP_append, additional_links_cons]
    simp only [hcid', if_true]
    rw [List.countP_append, List.countP_cons]
    simp only [List.countP_nil, beq_self_eq_true, if_true]
    omega
  omega

/-- C1 witness for the amended theorem at the scenario payload. -/
theorem C1_witness :
    2 ≤ (extract_catalog_links pC1).countP (fun l => l.catalog_id == 10) := by
  have h := C1_duplicate_pair_keeps_both_rows 1 10 none none [] [some crefEleven]
    (by decide) (by decide)
  simpa [pC1, crefTen, crefEleven] using h

/- =====================================================================
   C10 — at most one primary row, first, sort_order structure
   ===================================================================== -/

/-- C10: every output has at most one primary row; a primary row is the
    head of the list with sort_order 0; every non-primary row has
    sort_order at least 1. -/
theorem C10_primary_row_structure (p : ProductPayload) :
    (extract_catalog_links p).countP (fun l => l.is_primary) ≤ 1 ∧
    (∀ l ∈ extract_catalog_links p, l.is_primary = true →
      (extract_catalog_links p).head? = some l ∧ l.sort_order = 0) ∧
    (∀ l ∈ extract_catalog_links p, l.is_primary = false → 1 ≤ l.sort_order) := by
  cases hid : p.id with
  | none => simp [extract_catalog_links, hid]
  | some pid =>
    by_cases h0 : (pid == 0) = true
    · simp [extract_catalog_links, hid, h0]
    · have h0' : (pid == 0) = false := by simpa using h0
      have hE : extract_catalog_links p =
          primary_links pid p.catalog ++
            additional_links pid (p.catalogs.getD []) 1 := by
        simp [extract_catalog_links, hid, h0']
      refine ⟨?_, ?_, ?_⟩
      · rw [hE, List.countP_append, countP_is_primary_additional]
        have hle := List.countP_le_length
          (p := fun l => l.is_primary) (l := primary_links pid p.catalog)
        have := primary_links_length pid p.catalog
        omega
      · intro l hl hprim
        rw [hE] at hl
        rcases List.mem_append.mp hl with hP | hA
        · have hm := mem_primary_links hP
          rw [hE, hm.2.2]
          exact ⟨rfl, hm.2.1⟩
        · have := (mem_additional_links hA).1
          rw [hprim] at this
          exact absurd this (by simp)
      · intro l hl hfalse
        rw [hE] at hl
        rcases List.mem_append.mp hl with hP | hA
        · have := (mem_primary_links hP).1
          rw [hfalse] at this
          exact absurd this (by simp)
        · exact (mem_additional_links hA).2.1

/-- C10 witness: the primary row of the scenario payload is the head with
    sort_order 0. -/
theorem C10_witness :
    (extract_catalog_links pC1).head? =
      some { product_id := 1, catalog_id := 10, catalog_sync_uid := none,
             catalog_header := none, is_primary := true, sort_order := 0 } ∧
    ({ product_id := 1, catalog_id := 10, catalog_sync_uid := none,
       catalog_header := none, is_primary := true,
       sort_order := 0 } : Link).sort_order = 0 :=
  (C10_primary_row_structure pC1).2.1 _ (by decide) rfl

/- =====================================================================
   C7 — nested-set violations and Python truthiness
   ===================================================================== -/

/-- C7 counterexample: a node with lft = 0 and rgt = 0 satisfies lft >= rgt
    but produces NO finding, because `if lft and rgt and lft >= rgt` skips
    any node whose lft or rgt is falsy (0 or absent). -/
theorem C7_counterexample :
    eZeroBounds.lft = some 0 ∧ eZeroBounds.rgt = some 0 ∧
    Finding.nestedSet eZeroBounds ∉ find_inconsistencies [eZeroBounds] := by
  decide

/-- C7 amended: a nested-set finding is reported for a node exactly under
    the truthiness proviso — both bounds present AND non-zero, with
    lft >= rgt. (Completeness direction: such a node is always reported.) -/
theorem C7_nested_set_reported (cats : List Entry) (c : Entry) (l r : Int)
    (hc : c ∈ cats) (hl : c.lft = some l) (hr : c.rgt = some r)
    (hl0 : l ≠ 0) (hr0 : r ≠ 0) (hlr : r ≤ l) :
    Finding.nestedSet c ∈ find_inconsistencies cats := by
  unfold find_inconsistencies
  refine List.mem_append.mpr (Or.inl (List.mem_append.mpr (Or.inl
    (List.mem_append.mpr (Or.inl ?_)))))
  refine List.mem_map.mpr ⟨c, List.mem_filter.mpr ⟨hc, ?_⟩, rfl⟩
  simp only [nestedSetViolation, hl, hr]
  simp [hl0, hr0, hlr]

/-- C7 witness: inverted non-zero bounds are reported. -/
theorem C7_witness :
    Finding.nestedSet eBadBounds ∈ find_inconsistencies [eBadBounds] :=
  C7_nested_set_reported [eBadBounds] eBadBounds 5 3 (by decide) rfl rfl
    (by decide) (by decide) (by decide)

/- =====================================================================
   C2 — dynamic-typing contract of the resolver
   ===================================================================== -/

/-- C2 counterexample: None is not a string, yet resolution returns
    not-found without raising — refuting "raises InvalidBreadcrumbError
    exactly when the input is not a string" (moreover the raise that a
    truthy non-string does produce is an AttributeError; no
    InvalidBreadcrumbError exists in the code). -/
theorem C2_counterexample :
    find_category_by_breadcrumbs_dyn PyVal.vNone [] [] none none =
      Except.ok none ∧
    PyVal.isStr PyVal.vNone = false ∧
    raised (find_category_by_breadcrumbs_dyn (PyVal.vInt 1) [] [] none none) =
      true :=
  ⟨rfl, rfl, rfl⟩

/-- C2 amended: the resolver raises exactly on truthy non-string inputs
    (an AttributeError from .split); every string input and every falsy
    input returns without raising. -/
theorem C2_raise_characterization (v : PyVal) (m bp : PyDict Cat)
    (env : Option CreateEnv) (root : Option Cat) :
    raised (find_category_by_breadcrumbs_dyn v m bp env root) =
      (v.truthy && !v.isStr) := by
  cases v with
  | vNone => simp [find_category_by_breadcrumbs_dyn, PyVal.truthy, PyVal.isStr, raised]
  | vStr s =>
    by_cases hs : s = "" <;>
      simp [find_category_by_breadcrumbs_dyn, PyVal.truthy, PyVal.isStr, raised, hs]
  | vInt n =>
    by_cases hn : n = 0 <;>
      simp [find_category_by_breadcrumbs_dyn, PyVal.truthy, PyVal.isStr, raised, hn]

/- =====================================================================
   C6 — abort when a created path is missing after re-fetch
   ===================================================================== -/

/-- C6: at any point of the walk, if the next segment's path is missing,
    the creation call reports success, and the re-fetched index still lacks
    the expected path, then the walk returns None and its trace contains
    only this one creation — no later segment is attempted. -/
theorem C6_abort_on_missing_after_create (env : CreateEnv) (part : String)
    (rest : List String) (parent : Int) (cur : String) (bp bp' : PyDict Cat)
    (k : Nat) (henv : env k = (true, bp'))
    (hmiss : dictGet bp (extend_path cur (pyNormalize part)) = none)
    (hmiss' : dictGet bp' (extend_path cur (pyNormalize part)) = none) :
    ensure_go env (part :: rest) parent cur bp k =
      (none, [{ id := 0, parentId := parent, header := part, enabled := true,
                deleted := false, lastLevel := true, pos := 500 }]) := by
  simp only [ensure_go, hmiss, henv, hmiss']

/-- C6 witness: a concrete aborted walk. -/
theorem C6_witness :
    ensure_go (fun _ => (true, ([] : PyDict Cat))) ["a", "b"] 22 "" [] 0 =
      (none, [{ id := 0, parentId := 22, header := "a", enabled := true,
                deleted := false, lastLevel := true, pos := 500 }]) :=
  C6_abort_on_missing_after_create (fun _ => (true, [])) "a" ["b"] 22 "" [] [] 0
    rfl rfl rfl

/- =====================================================================
   C5 — payload of the create-category call
   ===================================================================== -/

def catSegA : Cat :=
  { id := 100, header := "a", syncUid := none, parentId := some 22,
    enabled := true, full_path := "a" }

def catSegB : Cat :=
  { id := 101, header := "b", syncUid := none, parentId := some 100,
    enabled := true, full_path := "a / b" }

/-- A remote environment where both creations succeed and each re-fetch
    contains the newly created path. -/
def envTwoSegs : CreateEnv := fun k =>
  if k = 0 then (true, [("a", catSegA)])
  else (true, [("a", catSegA), ("a / b", catSegB)])

/-- C5 counterexample: walking "a/b" from an empty index issues two create
    calls, and the call for the non-final segment "a" carries
    lastLevel = true — the code hard-codes lastLevel: True for every
    segment, refuting "earlier, non-final segments are created with
    lastLevel = false". -/
theorem C5_counterexample :
    (ensure_category_path envTwoSegs "a/b" [] fallbackRoot).2 =
      [{ id := 0, parentId := 22, header := "a", enabled := true,
         deleted := false, lastLevel := true, pos := 500 },
       { id := 0, parentId := 100, header := "b", enabled := true,
         deleted := false, lastLevel := true, pos := 500 }] ∧
    (pySplitOn '/' "a/b").map pyStrip = ["a", "b"] := by
  decide

/-- C5 amended: every create call issued by the walk has header equal to
    one of the (stripped) segments, the current parent id as parentId, and
    the constant body id=0, enabled=True, deleted=False, pos=500 — and
    lastLevel is always True, for final and non-final segments alike. -/
theorem C5_create_call_payload (env : CreateEnv) (parts : List String)
    (parent : Int) (cur : String) (bp : PyDict Cat) (k : Nat) (c : CreateCall)
    (hc : c ∈ (ensure_go env parts parent cur bp k).2) :
    c.lastLevel = true ∧ c.id = 0 ∧ c.enabled = true ∧ c.deleted = false ∧
    c.pos = 500 ∧ c.header ∈ parts := by
  induction parts generalizing parent cur bp k with
  | nil => simp [ensure_go] at hc
  | cons part rest ih =>
    simp only [ensure_go] at hc
    cases hbp : dictGet bp (extend_path cur (pyNormalize part)) with
    | some c0 =>
      rw [hbp] at hc
      have h := ih c0.id (extend_path cur (pyNormalize part)) bp k hc
      exact ⟨h.1, h.2.1, h.2.2.1, h.2.2.2.1, h.2.2.2.2.1,
        List.mem_cons_of_mem _ h.2.2.2.2.2⟩
    | none =>
      rw [hbp] at hc
      rcases henv : env k with ⟨succ, bp'⟩
      rw [henv] at hc
      dsimp only at hc
      cases succ with
      | true =>
        dsimp only at hc
        cases hbp' : dictGet bp' (extend_path cur (pyNormalize part)) with
        | some c' =>
          rw [hbp'] at hc
          dsimp only at hc
          simp only [List.mem_cons] at hc
          rcases hc with hceq | hcrest
          · subst hceq
            exact ⟨rfl, rfl, rfl, rfl, rfl, List.mem_cons_self _ _⟩
          · have h := ih c'.id (extend_path cur (pyNormalize part)) bp' (k + 1)
              hcrest
            exact ⟨h.1, h.2.1, h.2.2.1, h.2.2.2.1, h.2.2.2.2.1,
              List.mem_cons_of_mem _ h.2.2.2.2.2⟩
        | none =>
          rw [hbp'] at hc
          dsimp only at hc
          simp only [List.mem_singleton] at hc
          subst hc
          exact ⟨rfl, rfl, rfl, rfl, rfl, List.mem_cons_self _ _⟩
      | false =>
        dsimp only at hc
        simp only [List.mem_singleton] at hc
        subst hc
        exact ⟨rfl, rfl, rfl, rfl, rfl, List.mem_cons_self _ _⟩

/-- C5 witness: the first call of the concrete two-segment walk. -/
theorem C5_witness :
    ({ id := 0, parentId := 22, header := "a", enabled := true,
       deleted := false, lastLevel := true, pos := 500 } : CreateCall).lastLevel
        = true ∧
    ({ id := 0, parentId := 22, header := "a", enabled := true,
       deleted := false, lastLevel := true, pos := 500 } : CreateCall).id = 0 ∧
    ({ id := 0, parentId := 22, header := "a", enabled := true,
       deleted := false, lastLevel := true, pos := 500 } : CreateCall).enabled
        = true ∧
    ({ id := 0, parentId := 22, header := "a", enabled := true,
       deleted := false, lastLevel := true, pos := 500 } : CreateCall).deleted
        = false ∧
    ({ id := 0, parentId := 22, header := "a", enabled := true,
       deleted := false, lastLevel := true, pos := 500 } : CreateCall).pos
        = 500 ∧
    ({ id := 0, parentId := 22, header := "a", enabled := true,
       deleted := false, lastLevel := true, pos := 500 } : CreateCall).header
        ∈ ["a", "b"] :=
  C5_create_call_payload envTwoSegs ["a", "b"] 22 "" [] 0 _ (by decide)

/- =====================================================================
   C4 — fuzzy variants tried by find_similar_category
   ===================================================================== -/

def catMlo : Cat :=
  { id := 7, header := "мло", syncUid := none, parentId := none,
    enabled := true, full_path := "мло" }

def mapMlo : PyDict Cat := [("мло", catMlo)]

/-- C4 counterexample: for segment "мыло" the code's variant list is
    [мыло, мло, мыло, мыло] — str.replace("ы","") removes the INNER "ы" as
    well — which differs from the spec's trailing-only variants
    [мыло, мыло, мыло]; concretely the code finds a node named "мло" that
    the claimed trailing-strip variants cannot reach. -/
theorem C4_counterexample :
    search_variants (pyNormalize "мыло") ≠
      spec_fuzzy_variants (pyNormalize "мыло") ∧
    find_similar_category "мыло" mapMlo [] = some catMlo ∧
    (spec_fuzzy_variants (pyNormalize "мыло")).findSome?
      (fun v => dictGet mapMlo v) = none := by
  decide

/-- C4 amended: the fuzzy step tries, in order, the plain normalized
    segment and the segment with ALL occurrences of "ы", of "и", and of
    spaces removed (not just trailing characters); each variant is looked up
    in the name index, first hit wins. -/
theorem C4_variant_cascade (s : String) (m bp : PyDict Cat) :
    (∀ c, dictGet m (pyNormalize s) = some c →
      find_similar_category s m bp = some c) ∧
    (dictGet m (pyNormalize s) = none →
      ∀ c, dictGet m (removeAllChar 'ы' (pyNormalize s)) = some c →
        find_similar_category s m bp = some c) ∧
    (dictGet m (pyNormalize s) = none →
      dictGet m (removeAllChar 'ы' (pyNormalize s)) = none →
      ∀ c, dictGet m (removeAllChar 'и' (pyNormalize s)) = some c →
        find_similar_category s m bp = some c) ∧
    (dictGet m (pyNormalize s) = none →
      dictGet m (removeAllChar 'ы' (pyNormalize s)) = none →
      dictGet m (removeAllChar 'и' (pyNormalize s)) = none →
      ∀ c, dictGet m (removeAllChar ' ' (pyNormalize s)) = some c →
        find_similar_category s m bp = some c) := by
  refine ⟨?_, ?_, ?_, ?_⟩
  · intro c hc
    simp [find_similar_category, search_variants, List.findSome?, hc]
  · intro h0 c hc
    simp [find_similar_category, search_variants, List.findSome?, h0, hc]
  · intro h0 h1 c hc
    simp [find_similar_category, search_variants, List.findSome?, h0, h1, hc]
  · intro h0 h1 h2 c hc
    simp [find_similar_category, search_variants, List.findSome?, h0, h1, h2, hc]

/-- C4 witness: the all-occurrences "ы"-removal variant resolves "мыло" to
    the node named "мло". -/
theorem C4_witness : find_similar_category "мыло" mapMlo [] = some catMlo :=
  (C4_variant_cascade "мыло" mapMlo []).2.1 (by decide) catMlo (by decide)

/- =====================================================================
   C3 — re-flattening the same (mutated) tree
   ===================================================================== -/

def nodeChild : Node := .mk (some 2) "b" none none none none false true 0 []

def nodeRoot : Node := .mk (some 1) "a" none none none none false true 0
  [nodeChild]

/-- C3 counterexample: flatten pops each node's children, so re-flattening
    the very same tree loses every nested node: node id 2 has
    path "a > b" / depth 2 in the first run and is absent from the second —
    the two runs do not agree for every node id. -/
theorem C3_counterexample :
    lookupPD (some 2) (flatten_catalog_tree [nodeRoot]).1 =
      some ("a > b", ["a", "b"], 2) ∧
    lookupPD (some 2)
      (flatten_catalog_tree (flatten_catalog_tree [nodeRoot]).2).1 = none := by
  decide

/-- C3 amended: the second run is a lossy restriction of the first — every
    entry produced by re-flattening the mutated tree has a matching entry
    (same id, path, pathArray, depth) in the first run, but nested ids are
    gone. -/
theorem C3_second_run_agrees_where_present (t : List Node) (e : Entry)
    (he : e ∈ (flatten_catalog_tree (flatten_catalog_tree t).2).1) :
    ∃ e' ∈ (flatten_catalog_tree t).1,
      e'.id = e.id ∧ e'.path = e.path ∧ e'.pathArray = e.pathArray ∧
      e'.depth = e.depth := by
  simp only [flatten_catalog_tree] at he ⊢
  induction t with
  | nil => simp [flattenList] at he
  | cons n rest ih =>
    rcases n with ⟨i, h, su, pid, l, r, ll, en, pc, cs⟩
    simp only [List.map_cons, flattenList, stripChildren, flattenNode,
      List.isEmpty_nil, if_true, List.mem_append] at he
    rcases he with he1 | he2
    · simp only [List.mem_singleton] at he1
      subst he1
      refine ⟨mkEntry i h su pid l r ll en pc ([] ++ [h]) cs, ?_, rfl, rfl, rfl, rfl⟩
      simp [flattenList, flattenNode]
    · rcases ih he2 with ⟨e', he', hfields⟩
      refine ⟨e', ?_, hfields⟩
      simp only [flattenList, List.mem_append]
      exact Or.inr he'

/-- C3 witness: the surviving top-level entry of the concrete two-node
    tree. -/
theorem C3_witness :
    ∃ e' ∈ (flatten_catalog_tree [nodeRoot]).1,
      e'.id = some 1 ∧ e'.path = "a" ∧ e'.pathArray = ["a"] ∧ e'.depth = 1 := by
  have h := C3_second_run_agrees_where_present [nodeRoot]
    (mkEntry (some 1) "a" none none none none false true 0 ["a"] [])
    (by decide)
  simpa [mkEntry, joinStrings, joinWith] using h

/- =====================================================================
   C9 — hard-coded fallback root
   ===================================================================== -/

mutual

theorem parse_catalog_root_unchanged (c : CTree) (pp : String) (st : LoadSt)
    (h : hasIdTree CATALOG_1C_ID c = false) :
    (parse_catalog c pp st).2.2 = st.2.2 := by
  rcases c with ⟨i, hd, su, pid, en, cs⟩
  simp only [hasIdTree, Bool.or_eq_false_iff, decide_eq_false_iff_not] at h
  simp only [parse_catalog]
  rw [parse_list_root_unchanged cs _ _ h.2]
  simp only [if_neg h.1]

theorem parse_list_root_unchanged (cs : List CTree) (pp : String) (st : LoadSt)
    (h : hasIdList CATALOG_1C_ID cs = false) :
    (parse_list cs pp st).2.2 = st.2.2 := by
  match cs with
  | [] => rfl
  | c :: rest =>
    simp only [hasIdList, Bool.or_eq_false_iff] at h
    simp only [parse_list]
    rw [parse_list_root_unchanged rest _ _ h.2,
      parse_catalog_root_unchanged c _ _ h.1]

end

/-- C9: when the fetched tree holds no node with id 22, load_categories
    still returns a root category — the hard-coded record with id 22,
    header "Уровень - 1с", parent id 1, enabled. -/
theorem C9_fallback_root (t : CTree) (h : hasIdTree CATALOG_1C_ID t = false) :
    (load_categories t).2.2 = fallbackRoot ∧
    fallbackRoot.id = 22 ∧ fallbackRoot.header = "Уровень - 1с" ∧
    fallbackRoot.parentId = some 1 ∧ fallbackRoot.enabled = true := by
  refine ⟨?_, rfl, rfl, rfl, rfl⟩
  simp only [load_categories]
  rw [parse_catalog_root_unchanged t "" ([], [], none) h]
  rfl

def treeNo22 : CTree := .mk 1 "r" none none true [.mk 2 "s" none (some 1) true []]

/-- C9 witness at a concrete tree without id 22. -/
theorem C9_witness :
    (load_categories treeNo22).2.2 = fallbackRoot ∧
    fallbackRoot.id = 22 ∧ fallbackRoot.header = "Уровень - 1с" ∧
    fallbackRoot.parentId = some 1 ∧ fallbackRoot.enabled = true :=
  C9_fallback_root treeNo22 (by decide)

/- =====================================================================
   C8 — supporting lemmas: characters, split, join
   ===================================================================== -/

theorem char_toNat_ofNat {n : Nat} (h : n < 55296) :
    (Char.ofNat n).toNat = n := by
  rw [Char.ofNat, dif_pos (Or.inl (by omega))]
  rfl

theorem pyLowerChar_idem (c : Char) :
    pyLowerChar (pyLowerChar c) = pyLowerChar c := by
  unfold pyLowerChar
  by_cases h1 : 65 ≤ c.toNat ∧ c.toNat ≤ 90
  · have ht : (Char.ofNat (c.toNat + 32)).toNat = c.toNat + 32 :=
      char_toNat_ofNat (by omega)
    rw [if_pos h1, if_neg (by rw [ht]; omega), if_neg (by rw [ht]; omega),
      if_neg (by rw [ht]; omega)]
  · rw [if_neg h1]
    by_cases h2 : 1040 ≤ c.toNat ∧ c.toNat ≤ 1071
    · have ht : (Char.ofNat (c.toNat + 32)).toNat = c.toNat + 32 :=
        char_toNat_ofNat (by omega)
      rw [if_pos h2, if_neg (by rw [ht]; omega), if_neg (by rw [ht]; omega),
        if_neg (by rw [ht]; omega)]
    · rw [if_neg h2]
      by_cases h3 : c.toNat = 1025
      · have ht : (Char.ofNat 1105).toNat = 1105 := char_toNat_ofNat (by omega)
        rw [if_pos h3, if_neg (by rw [ht]; omega), if_neg (by rw [ht]; omega),
          if_neg (by rw [ht]; omega)]
      · rw [if_neg h3, if_neg h1, if_neg h2, if_neg h3]

theorem pyLowerChar_space : pyLowerChar ' ' = ' ' := by decide

theorem pyLowerChar_ne_slash {c : Char} (h : c ≠ '/') :
    pyLowerChar c ≠ '/' := by
  have h47 : ('/' : Char).toNat = 47 := rfl
  unfold pyLowerChar
  by_cases h1 : 65 ≤ c.toNat ∧ c.toNat ≤ 90
  · rw [if_pos h1]
    intro heq
    have := congrArg Char.toNat heq
    rw [char_toNat_ofNat (by omega), h47] at this
    omega
  · rw [if_neg h1]
    by_cases h2 : 1040 ≤ c.toNat ∧ c.toNat ≤ 1071
    · rw [if_pos h2]
      intro heq
      have := congrArg Char.toNat heq
      rw [char_toNat_ofNat (by omega), h47] at this
      omega
    · rw [if_neg h2]
      by_cases h3 : c.toNat = 1025
      · rw [if_pos h3]
        intro heq
        have := congrArg Char.toNat heq
        rw [char_toNat_ofNat (by omega), h47] at this
        omega
      · rw [if_neg h3]
        exact h

theorem map_fix {l : List Char} {f : Char → Char} (h : ∀ c ∈ l, f c = c) :
    l.map f = l := by
  induction l with
  | nil => rfl
  | cons c cs ih =>
    simp only [List.map_cons, h c (List.mem_cons_self c cs),
      ih (fun x hx => h x (List.mem_cons_of_mem c hx))]

theorem splitWsAux_tokens (l : List Char) :
    ∀ (cur : List Char), (∀ c ∈ cur, isPySpace c = false) →
    ∀ t ∈ splitWsAux cur l, t ≠ [] ∧ ∀ c ∈ t, isPySpace c = false := by
  induction l with
  | nil =>
    intro cur hcur t ht
    simp only [splitWsAux] at ht
    split at ht
    · simp at ht
    · rename_i hne
      simp only [List.mem_singleton] at ht
      subst ht
      refine ⟨?_, fun c hc => hcur c (List.mem_reverse.mp hc)⟩
      intro habs
      rw [List.reverse_eq_nil_iff] at habs
      subst habs
      simp at hne
  | cons c cs ih =>
    intro cur hcur t ht
    simp only [splitWsAux] at ht
    by_cases hsp : isPySpace c = true
    · rw [if_pos hsp] at ht
      by_cases hce : cur.isEmpty = true
      · rw [if_pos hce] at ht
        exact ih [] (by simp) t ht
      · rw [if_neg hce] at ht
        rcases List.mem_cons.mp ht with h1 | h2
        · subst h1
          refine ⟨?_, fun x hx => hcur x (List.mem_reverse.mp hx)⟩
          intro habs
          rw [List.reverse_eq_nil_iff] at habs
          subst habs
          simp at hce
        · exact ih [] (by simp) t h2
    · rw [if_neg hsp] at ht
      refine ih (c :: cur) ?_ t ht
      intro x hx
      rcases List.mem_cons.mp hx with h1 | h2
      · subst h1
        simpa using hsp
      · exact hcur x h2

theorem splitWsAux_subset (l : List Char) :
    ∀ (cur : List Char) (t : List Char), t ∈ splitWsAux cur l →
    ∀ c ∈ t, c ∈ cur ∨ c ∈ l := by
  induction l with
  | nil =>
    intro cur t ht c hc
    simp only [splitWsAux] at ht
    split at ht
    · simp at ht
    · simp only [List.mem_singleton] at ht
      subst ht
      exact Or.inl (List.mem_reverse.mp hc)
  | cons x xs ih =>
    intro cur t ht c hc
    simp only [splitWsAux] at ht
    by_cases hsp : isPySpace x = true
    · rw [if_pos hsp] at ht
      by_cases hce : cur.isEmpty = true
      · rw [if_pos hce] at ht
        rcases ih [] t ht c hc with h | h
        · simp at h
        · exact Or.inr (List.mem_cons_of_mem x h)
      · rw [if_neg hce] at ht
        rcases List.mem_cons.mp ht with h1 | h2
        · subst h1
          exact Or.inl (List.mem_reverse.mp hc)
        · rcases ih [] t h2 c hc with h | h
          · simp at h
          · exact Or.inr (List.mem_cons_of_mem x h)
    · rw [if_neg hsp] at ht
      rcases ih (x :: cur) t ht c hc with h | h
      · rcases List.mem_cons.mp h with h1 | h2
        · rw [h1]
          exact Or.inr (List.mem_cons_self x xs)
        · exact Or.inl h2
      · exact Or.inr (List.mem_cons_of_mem x h)

theorem splitWsAux_no_space (l : List Char)
    (hl : ∀ c ∈ l, isPySpace c = false) :
    ∀ (cur : List Char),
      splitWsAux cur l =
        if (cur.reverse ++ l).isEmpty then [] else [cur.reverse ++ l] := by
  induction l with
  | nil =>
    intro cur
    simp [splitWsAux]
  | cons c cs ih =>
    intro cur
    have hc : isPySpace c = false := hl c (List.mem_cons_self c cs)
    simp only [splitWsAux, hc, Bool.false_eq_true, if_false]
    rw [ih (fun x hx => hl x (List.mem_cons_of_mem c hx)) (c :: cur)]
    simp only [List.reverse_cons, List.append_assoc, List.singleton_append]

theorem splitWsAux_token_space (t : List Char)
    (htok : ∀ c ∈ t, isPySpace c = false) :
    ∀ (rest cur : List Char), (cur = [] → t ≠ []) →
      splitWsAux cur (t ++ ' ' :: rest) =
        (cur.reverse ++ t) :: splitWsAux [] rest := by
  induction t with
  | nil =>
    intro rest cur hne
    have hcur : ¬cur.isEmpty = true := by
      intro habs
      rw [List.isEmpty_iff] at habs
      exact hne habs rfl
    simp only [List.nil_append, splitWsAux, show isPySpace ' ' = true from rfl,
      if_pos trivial, if_neg hcur, List.append_nil]
  | cons c t' ih =>
    intro rest cur hne
    have hc : isPySpace c = false := htok c (List.mem_cons_self c t')
    simp only [List.cons_append, splitWsAux, hc, Bool.false_eq_true, if_false]
    have hstep := ih (fun x hx => htok x (List.mem_cons_of_mem c hx)) rest
      (c :: cur) (fun habs => absurd habs (by simp))
    rw [show splitWsAux (c :: cur) (t'.append (' ' :: rest)) =
        splitWsAux (c :: cur) (t' ++ ' ' :: rest) from rfl, hstep]
    simp only [List.reverse_cons, List.append_assoc, List.singleton_append]

theorem splitWs_joinWith :
    ∀ (ts : List (List Char)),
      (∀ t ∈ ts, t ≠ [] ∧ ∀ c ∈ t, isPySpace c = false) →
      splitWs (joinWith [' '] ts) = ts
  | [], _ => by simp [joinWith, splitWs, splitWsAux]
  | [t], h => by
    have ht := h t (List.mem_singleton.mpr rfl)
    simp only [joinWith, splitWs]
    rw [splitWsAux_no_space t ht.2 []]
    simp [ht.1]
  | t :: t' :: ts, h => by
    have ht := h t (List.mem_cons_self _ _)
    have hjoin : joinWith [' '] (t :: t' :: ts) =
        t ++ ' ' :: joinWith [' '] (t' :: ts) := by
      simp [joinWith, List.append_assoc, List.singleton_append]
    rw [splitWs, hjoin,
      splitWsAux_token_space t ht.2 _ [] (fun _ => ht.1)]
    simp only [List.reverse_nil, List.nil_append]
    rw [show splitWsAux [] (joinWith [' '] (t' :: ts)) =
        splitWs (joinWith [' '] (t' :: ts)) from rfl,
      splitWs_joinWith (t' :: ts)
        (fun x hx => h x (List.mem_cons_of_mem t hx))]

theorem splitWsAux_leading_spaces :
    ∀ (pre l : List Char), (∀ c ∈ pre, c = ' ') →
      splitWsAux [] (pre ++ l) = splitWsAux [] l := by
  intro pre
  induction pre with
  | nil => intro l _; rfl
  | cons p pre' ih =>
    intro l hp
    have hp' : p = ' ' := hp p (List.mem_cons_self p pre')
    subst hp'
    simp only [List.cons_append, splitWsAux, show isPySpace ' ' = true from rfl,
      if_pos trivial, List.isEmpty_nil, if_pos trivial]
    exact ih l (fun x hx => hp x (List.mem_cons_of_mem _ hx))

theorem splitWsAux_trailing_space :
    ∀ (l cur : List Char), splitWsAux cur (l ++ [' ']) = splitWsAux cur l := by
  intro l
  have hspc : isPySpace ' ' = true := rfl
  induction l with
  | nil =>
    intro cur
    by_cases hce : cur.isEmpty = true
    · simp only [List.nil_append, splitWsAux, hspc, eq_self_iff_true, if_true,
        if_pos hce]
      rfl
    · simp only [List.nil_append, splitWsAux, hspc, eq_self_iff_true, if_true,
        if_neg hce]
      rfl
  | cons c cs ih =>
    intro cur
    by_cases hsp : isPySpace c = true
    · by_cases hce : cur.isEmpty = true
      · simp only [List.cons_append, splitWsAux, hsp, eq_self_iff_true,
          if_true, if_pos hce]
        exact ih []
      · simp only [List.cons_append, splitWsAux, hsp, eq_self_iff_true,
          if_true, if_neg hce]
        exact congrArg (cur.reverse :: ·) (ih [])
    · have hsp' : isPySpace c = false := by simpa using hsp
      simp only [List.cons_append, splitWsAux, hsp', Bool.false_eq_true,
        if_false]
      exact ih (c :: cur)

theorem splitWsAux_trailing_spaces :
    ∀ (post l cur : List Char), (∀ c ∈ post, c = ' ') →
      splitWsAux cur (l ++ post) = splitWsAux cur l := by
  intro post
  induction post with
  | nil => intro l cur _; rw [List.append_nil]
  | cons p post' ih =>
    intro l cur hp
    have hp' : p = ' ' := hp p (List.mem_cons_self p post')
    subst hp'
    rw [List.append_cons, ih (l ++ [' ']) cur
      (fun x hx => hp x (List.mem_cons_of_mem _ hx)),
      splitWsAux_trailing_space]

theorem mem_joinWith :
    ∀ (sep : List Char) (ts : List (List Char)) (c : Char),
      c ∈ joinWith sep ts → c ∈ sep ∨ ∃ t ∈ ts, c ∈ t
  | _, [], _, h => by simp [joinWith] at h
  | sep, [t], c, h => by
    simp only [joinWith] at h
    exact Or.inr ⟨t, List.mem_singleton.mpr rfl, h⟩
  | sep, t :: t' :: ts, c, h => by
    simp only [joinWith, List.append_assoc, List.mem_append] at h
    rcases h with h1 | h2 | h3
    · exact Or.inr ⟨t, List.mem_cons_self _ _, h1⟩
    · exact Or.inl h2
    · rcases mem_joinWith sep (t' :: ts) c h3 with hs | ⟨u, hu, hcu⟩
      · exact Or.inl hs
      · exact Or.inr ⟨u, List.mem_cons_of_mem t hu, hcu⟩

theorem joinWith_append_singleton :
    ∀ (sep : List Char) (ts : List (List Char)) (x : List Char), ts ≠ [] →
      joinWith sep (ts ++ [x]) = joinWith sep ts ++ sep ++ x
  | _, [], _, h => absurd rfl h
  | sep, [t], x, _ => by simp [joinWith]
  | sep, t :: t' :: ts, x, _ => by
    have ih := joinWith_append_singleton sep (t' :: ts) x (by simp)
    calc joinWith sep ((t :: t' :: ts) ++ [x])
        = t ++ sep ++ joinWith sep ((t' :: ts) ++ [x]) := rfl
      _ = t ++ sep ++ (joinWith sep (t' :: ts) ++ sep ++ x) := by rw [ih]
      _ = (t ++ sep ++ joinWith sep (t' :: ts)) ++ sep ++ x := by
          simp [List.append_assoc]

theorem pyNormalize_data (s : String) :
    (pyNormalize s).data = joinWith [' '] (splitWs (s.data.map pyLowerChar)) :=
  rfl

theorem mem_normalized_fixed {s : String} {c : Char}
    (hc : c ∈ (pyNormalize s).data) : pyLowerChar c = c := by
  rw [pyNormalize_data] at hc
  rcases mem_joinWith _ _ _ hc with hs | ⟨t, ht, hct⟩
  · simp only [List.mem_singleton] at hs
    rw [hs]
    exact pyLowerChar_space
  · rcases splitWsAux_subset _ [] t ht c hct with h | h
    · simp at h
    · rcases List.mem_map.mp h with ⟨d, _, hdc⟩
      rw [← hdc]
      exact pyLowerChar_idem d

theorem pyNormalize_idem (s : String) :
    pyNormalize (pyNormalize s) = pyNormalize s := by
  have h1 : (pyNormalize s).data.map pyLowerChar = (pyNormalize s).data :=
    map_fix (fun c hc => mem_normalized_fixed hc)
  have htok : ∀ t ∈ splitWs (s.data.map pyLowerChar),
      t ≠ [] ∧ ∀ c ∈ t, isPySpace c = false :=
    fun t ht => splitWsAux_tokens _ [] (by simp) t ht
  have hstep : pyNormalize (pyNormalize s) =
      ⟨joinWith [' '] (splitWs ((pyNormalize s).data.map pyLowerChar))⟩ := rfl
  rw [hstep, h1, pyNormalize_data,
    show splitWs (joinWith [' '] (splitWs (s.data.map pyLowerChar))) =
      splitWs (s.data.map pyLowerChar) from splitWs_joinWith _ htok]
  rfl

theorem pyNormalize_pad (mid pre post : List Char)
    (hpre : ∀ c ∈ pre, c = ' ') (hpost : ∀ c ∈ post, c = ' ') :
    pyNormalize ⟨pre ++ mid ++ post⟩ = pyNormalize ⟨mid⟩ := by
  have hpre' : pre.map pyLowerChar = pre :=
    map_fix (fun c hc => by rw [hpre c hc]; exact pyLowerChar_space)
  have hpost' : post.map pyLowerChar = post :=
    map_fix (fun c hc => by rw [hpost c hc]; exact pyLowerChar_space)
  have hmap : (pre ++ mid ++ post).map pyLowerChar =
      pre ++ mid.map pyLowerChar ++ post := by
    rw [List.map_append, List.map_append, hpre', hpost']
  have hstep : pyNormalize ⟨pre ++ mid ++ post⟩ =
      ⟨joinWith [' '] (splitWs ((pre ++ mid ++ post).map pyLowerChar))⟩ := rfl
  have h2 : splitWs (pre ++ mid.map pyLowerChar ++ post) =
      splitWs (mid.map pyLowerChar) := by
    rw [List.append_assoc,
      show splitWs (pre ++ (mid.map pyLowerChar ++ post)) =
        splitWsAux [] (pre ++ (mid.map pyLowerChar ++ post)) from rfl,
      splitWsAux_leading_spaces pre _ hpre,
      splitWsAux_trailing_spaces post _ [] hpost]
    rfl
  rw [hstep, hmap, h2]
  rfl

theorem pyNormalize_no_slash {s : String} (h : '/' ∉ s.data) :
    '/' ∉ (pyNormalize s).data := by
  intro habs
  rw [pyNormalize_data] at habs
  rcases mem_joinWith _ _ _ habs with hs | ⟨t, ht, hct⟩
  · simp at hs
  · rcases splitWsAux_subset _ [] t ht '/' hct with h0 | h0
    · simp at h0
    · rcases List.mem_map.mp h0 with ⟨d, hd, hdc⟩
      have hne : d ≠ '/' := fun he => h (he ▸ hd)
      exact pyLowerChar_ne_slash hne hdc

theorem splitCharAux_no_sep (sep : Char) (l : List Char)
    (hl : ∀ c ∈ l, c ≠ sep) :
    ∀ (cur : List Char), splitCharAux sep cur l = [cur.reverse ++ l] := by
  induction l with
  | nil => intro cur; simp [splitCharAux]
  | cons c cs ih =>
    intro cur
    have hc : ¬(c = sep) := hl c (List.mem_cons_self c cs)
    simp only [splitCharAux, if_neg hc]
    rw [ih (fun x hx => hl x (List.mem_cons_of_mem c hx)) (c :: cur)]
    simp [List.append_assoc]

theorem splitCharAux_sep_split (sep : Char) (a : List Char)
    (ha : ∀ c ∈ a, c ≠ sep) :
    ∀ (b cur : List Char),
      splitCharAux sep cur (a ++ sep :: b) =
        (cur.reverse ++ a) :: splitCharAux sep [] b := by
  induction a with
  | nil =>
    intro b cur
    show (if sep = sep then cur.reverse :: splitCharAux sep [] b
          else splitCharAux sep (sep :: cur) b) =
        (cur.reverse ++ []) :: splitCharAux sep [] b
    rw [if_pos rfl, List.append_nil]
  | cons c cs ih =>
    intro b cur
    have hc : ¬(c = sep) := ha c (List.mem_cons_self c cs)
    simp only [List.cons_append, splitCharAux, if_neg hc]
    rw [show splitCharAux sep (c :: cur) (cs.append (sep :: b)) =
        splitCharAux sep (c :: cur) (cs ++ sep :: b) from rfl,
      ih (fun x hx => ha x (List.mem_cons_of_mem c hx)) b (c :: cur)]
    simp [List.append_assoc]

theorem string_eq_of_data {s t : String} (h : s.data = t.data) : s = t := by
  cases s
  cases t
  exact congrArg String.mk h

/-- A well-formed stored path: a nonempty " / "-join of slash-free
    normalization fixpoints — the shape parse_catalog builds when no header
    contains a "/" character. -/
def PathOk (k : String) : Prop :=
  ∃ names : List String, names ≠ [] ∧
    (∀ nm ∈ names, pyNormalize nm = nm ∧ '/' ∉ nm.data) ∧
    k = joinStrings " / " names

theorem joinStrings_append_singleton (sep : String) (l : List String)
    (x : String) (h : l ≠ []) :
    joinStrings sep (l ++ [x]) = joinStrings sep l ++ sep ++ x := by
  apply string_eq_of_data
  show joinWith sep.data ((l ++ [x]).map String.data) =
    (joinStrings sep l ++ sep ++ x).data
  rw [List.map_append]
  simp only [List.map_cons, List.map_nil]
  rw [joinWith_append_singleton sep.data (l.map String.data) x.data
      (fun habs => h (List.map_eq_nil_iff.mp habs)),
    String.data_append, String.data_append]
  rfl

/-- Splitting a well-formed joined path on "/" and renormalizing each piece
    recovers exactly the original name list (each piece is a name padded
    with single spaces, which normalization strips). -/
theorem map_normalize_split :
    ∀ (names : List String) (pre : List Char), names ≠ [] →
      (∀ nm ∈ names, pyNormalize nm = nm ∧ '/' ∉ nm.data) →
      (∀ c ∈ pre, c = ' ') →
      (pySplitOn '/' ⟨pre ++ (joinStrings " / " names).data⟩).map pyNormalize =
        names
  | [], _, h, _, _ => absurd rfl h
  | [nm], pre, _, hprops, hpre => by
    have hp := hprops nm (List.mem_singleton.mpr rfl)
    have hnosep : ∀ c ∈ pre ++ nm.data, c ≠ '/' := by
      intro c hc
      rcases List.mem_append.mp hc with h1 | h1
      · rw [hpre c h1]; decide
      · exact fun he => hp.2 (he ▸ h1)
    have hsplit : pySplitOn '/' ⟨pre ++ (joinStrings " / " [nm]).data⟩ =
        [⟨pre ++ nm.data⟩] := by
      show (splitCharAux '/' [] (pre ++ nm.data)).map String.mk = _
      rw [splitCharAux_no_sep '/' (pre ++ nm.data) hnosep []]
      rfl
    rw [hsplit]
    show [pyNormalize ⟨pre ++ nm.data⟩] = [nm]
    rw [show (⟨pre ++ nm.data⟩ : String) = ⟨pre ++ nm.data ++ []⟩ by
          rw [List.append_nil],
      pyNormalize_pad nm.data pre [] hpre (by simp)]
    rw [show (⟨nm.data⟩ : String) = nm from rfl, hp.1]
  | nm :: nm' :: rest, pre, _, hprops, hpre => by
    have hp := hprops nm (List.mem_cons_self _ _)
    have hdata : pre ++ (joinStrings " / " (nm :: nm' :: rest)).data =
        (pre ++ nm.data ++ [' ']) ++
          '/' :: (' ' :: (joinStrings " / " (nm' :: rest)).data) := by
      have hjs : (joinStrings " / " (nm :: nm' :: rest)).data =
          nm.data ++ (" / " : String).data ++
            (joinStrings " / " (nm' :: rest)).data := rfl
      have hsep : (" / " : String).data = [' ', '/', ' '] := rfl
      rw [hjs, hsep]
      simp [List.append_assoc]
    have hnosep : ∀ c ∈ pre ++ nm.data ++ [' '], c ≠ '/' := by
      intro c hc
      rcases List.mem_append.mp hc with h1 | h1
      · rcases List.mem_append.mp h1 with h2 | h2
        · rw [hpre c h2]; decide
        · exact fun he => hp.2 (he ▸ h2)
      · simp only [List.mem_singleton] at h1
        rw [h1]; decide
    have hsplit : pySplitOn '/' ⟨pre ++ (joinStrings " / " (nm :: nm' :: rest)).data⟩ =
        ⟨pre ++ nm.data ++ [' ']⟩ ::
          pySplitOn '/' ⟨' ' :: (joinStrings " / " (nm' :: rest)).data⟩ := by
      show (splitCharAux '/' [] (pre ++ (joinStrings " / " (nm :: nm' :: rest)).data)).map
          String.mk = _
      rw [hdata, splitCharAux_sep_split '/' (pre ++ nm.data ++ [' ']) hnosep _ []]
      rfl
    rw [hsplit, List.map_cons]
    have hhead : pyNormalize ⟨pre ++ nm.data ++ [' ']⟩ = nm := by
      rw [pyNormalize_pad nm.data pre [' '] hpre (by simp),
        show (⟨nm.data⟩ : String) = nm from rfl, hp.1]
    have htail := map_normalize_split (nm' :: rest) [' '] (by simp)
      (fun x hx => hprops x (List.mem_cons_of_mem nm hx)) (by simp)
    rw [hhead,
      show (⟨' ' :: (joinStrings " / " (nm' :: rest)).data⟩ : String) =
        ⟨[' '] ++ (joinStrings " / " (nm' :: rest)).data⟩ from rfl, htail]

theorem dictGet_mem {α : Type} {m : PyDict α} {k : String} {v : α}
    (h : dictGet m k = some v) : (k, v) ∈ m := by
  unfold dictGet at h
  cases hf : m.find? (fun p => p.1 == k) with
  | none => rw [hf] at h; simp at h
  | some p =>
    obtain ⟨p1, p2⟩ := p
    rw [hf] at h
    have hpred := List.find?_some hf
    have hmem := List.mem_of_find?_eq_some hf
    have hk : p1 = k := by simpa using hpred
    have hv : p2 = v := by simpa using h
    rw [← hk, ← hv]
    exact hmem

theorem dictInsert_keys {α : Type} {P : String → Prop} {m : PyDict α}
    {k : String} {v : α} (hm : ∀ p ∈ m, P p.1) (hk : P k) :
    ∀ p ∈ dictInsert m k v, P p.1 := by
  intro p hp
  unfold dictInsert at hp
  split at hp
  · rcases List.mem_map.mp hp with ⟨q, hq, hpq⟩
    by_cases hqk : (q.1 == k) = true
    · rw [← hpq, if_pos hqk]
      exact hk
    · rw [← hpq, if_neg hqk]
      exact hm q hq
  · rcases List.mem_append.mp hp with h1 | h2
    · exact hm p h1
    · simp only [List.mem_singleton] at h2
      rw [h2]
      exact hk

mutual

/-- No header anywhere in the tree contains a "/" character. -/
def headersOkTree : CTree → Bool
  | .mk _ h _ _ _ cs => h.data.all (fun c => c != '/') && headersOkList cs

def headersOkList : List CTree → Bool
  | [] => true
  | c :: rest => headersOkTree c && headersOkList rest

end

theorem pathOk_extend (pp nm : String)
    (hnm : pyNormalize nm = nm) (hns : '/' ∉ nm.data)
    (hpp : pp = "" ∨ PathOk pp) :
    PathOk (if pp = "" then nm else pp ++ " / " ++ nm) := by
  by_cases hpp0 : pp = ""
  · rw [if_pos hpp0]
    refine ⟨[nm], by simp, ?_, ?_⟩
    · intro x hx
      simp only [List.mem_singleton] at hx
      rw [hx]
      exact ⟨hnm, hns⟩
    · rfl
  · rw [if_neg hpp0]
    rcases hpp with h | ⟨names, hn0, hprops, hj⟩
    · exact absurd h hpp0
    · refine ⟨names ++ [nm], by simp, ?_, ?_⟩
      · intro x hx
        rcases List.mem_append.mp hx with h1 | h1
        · exact hprops x h1
        · simp only [List.mem_singleton] at h1
          rw [h1]
          exact ⟨hnm, hns⟩
      · rw [joinStrings_append_singleton _ _ _ hn0, ← hj]

mutual

theorem parse_catalog_paths_ok (c : CTree) (pp : String) (st : LoadSt)
    (hok : headersOkTree c = true) (hpp : pp = "" ∨ PathOk pp)
    (hst : ∀ p ∈ st.2.1, PathOk p.1) :
    ∀ p ∈ (parse_catalog c pp st).2.1, PathOk p.1 := by
  rcases c with ⟨i, hd, su, pid, en, cs⟩
  simp only [headersOkTree, Bool.and_eq_true, List.all_eq_true] at hok
  have hnoslash : '/' ∉ hd.data := by
    intro habs
    have := hok.1 '/' habs
    simp at this
  have hnm : pyNormalize (pyNormalize hd) = pyNormalize hd := pyNormalize_idem hd
  have hns : '/' ∉ (pyNormalize hd).data := pyNormalize_no_slash hnoslash
  have hfp : PathOk
      (if pp = "" then pyNormalize hd else pp ++ " / " ++ pyNormalize hd) :=
    pathOk_extend pp (pyNormalize hd) hnm hns hpp
  simp only [parse_catalog]
  exact parse_list_paths_ok cs _ _ hok.2 (Or.inr hfp)
    (dictInsert_keys hst hfp)

theorem parse_list_paths_ok (cs : List CTree) (pp : String) (st : LoadSt)
    (hok : headersOkList cs = true) (hpp : pp = "" ∨ PathOk pp)
    (hst : ∀ p ∈ st.2.1, PathOk p.1) :
    ∀ p ∈ (parse_list cs pp st).2.1, PathOk p.1 := by
  match cs with
  | [] => simpa [parse_list] using hst
  | c :: rest =>
    simp only [headersOkList, Bool.and_eq_true] at hok
    simp only [parse_list]
    exact parse_list_paths_ok rest pp _ hok.2 hpp
      (parse_catalog_paths_ok c pp st hok.1 hpp hst)

end

theorem pathOk_renorm {p : String} (h : PathOk p) :
    normalized_breadcrumbs p = p := by
  rcases h with ⟨names, hn0, hprops, hj⟩
  subst hj
  unfold normalized_breadcrumbs
  rw [show pySplitOn '/' (joinStrings " / " names) =
      pySplitOn '/' ⟨[] ++ (joinStrings " / " names).data⟩ from rfl,
    map_normalize_split names [] hn0 hprops (by simp)]

/- =====================================================================
   C8 — round-trip resolution
   ===================================================================== -/

def treeSlash : CTree :=
  .mk 22 "x" none none true [.mk 30 "a/b" none (some 22) true []]

def catRootX : Cat :=
  { id := 22, header := "x", syncUid := none, parentId := none,
    enabled := true, full_path := "x" }

def catChildAB : Cat :=
  { id := 30, header := "a/b", syncUid := none, parentId := some 22,
    enabled := true, full_path := "x / a/b" }

/-- C8 counterexample: a header containing "/" breaks the round trip — the
    child stored at path "x / a/b" resolves to the ROOT node, because
    re-normalization splits its stored path into three segments and step 1
    misses, after which the per-segment fallback returns the root. -/
theorem C8_counterexample :
    dictGet (load_categories treeSlash).2.1 "x / a/b" = some catChildAB ∧
    find_category_by_breadcrumbs "x / a/b" (load_categories treeSlash).1
      (load_categories treeSlash).2.1 none none = some catRootX ∧
    catRootX ≠ catChildAB := by
  decide

/-- C8 amended: round-trip resolution via the step-1 exact match holds for
    every node that is the path index's entry for its own stored path,
    provided no header in the tree contains "/" and the stored path is
    non-empty: the stored path survives re-normalization unchanged and
    step 1 returns exactly the stored node. -/
theorem C8_round_trip_via_exact_match (t : CTree) (n : Cat)
    (hok : headersOkTree t = true)
    (hget : dictGet (load_categories t).2.1 n.full_path = some n)
    (hne : n.full_path ≠ "") :
    normalized_breadcrumbs n.full_path = n.full_path ∧
    find_category_by_breadcrumbs n.full_path (load_categories t).1
      (load_categories t).2.1 none none = some n := by
  have hbp : ∀ p ∈ (load_categories t).2.1, PathOk p.1 :=
    parse_catalog_paths_ok t "" ([], [], none) hok (Or.inl rfl) (by simp)
  have hmem : (n.full_path, n) ∈ (load_categories t).2.1 := dictGet_mem hget
  have hpok : PathOk n.full_path := hbp _ hmem
  have hren := pathOk_renorm hpok
  refine ⟨hren, ?_⟩
  unfold find_category_by_breadcrumbs
  rw [if_neg hne, hren, hget]

def treeGood : CTree :=
  .mk 22 "Root" none none true [.mk 30 "Child A" none (some 22) true []]

def catGood : Cat :=
  { id := 30, header := "Child A", syncUid := none, parentId := some 22,
    enabled := true, full_path := "root / child a" }

/-- C8 witness: a concrete slash-free tree round-trips its child's path. -/
theorem C8_witness :
    normalized_breadcrumbs "root / child a" = "root / child a" ∧
    find_category_by_breadcrumbs "root / child a" (load_categories treeGood).1
      (load_categories treeGood).2.1 none none = some catGood :=
  C8_round_trip_via_exact_match treeGood catGood (by decide) (by decide)
    (by decide)

end PIM
